import Mathlib

/-!
Shallow embedding of the computer-vision pipeline in `src/src-tauri/src/cv.rs`
(document rectification and table-structure extraction).

Conventions of the embedding:
* Rust `i32` coordinates are modelled as `ℤ` (overflow is ignored; all the
  concrete inputs in this file are tiny).
* `f64`/`f32` computations are idealised as exact real (`ℝ`) or exact rational
  (`ℚ`) arithmetic.  Comparisons the code performs on floating-point values are
  decided exactly; each such decision procedure carries a comment explaining
  the equivalence with the real-number comparison it stands for.
* External OpenCV primitives (thresholding, morphology, contour tracing,
  `contour_area`, `bounding_rect`, homography estimation, warping) are out of
  scope per the specification; the embedding starts from their outputs
  (lists of points, lists of boxes) and models exactly the code the repository
  itself contains.
* Fallible steps are modelled with `Option`/`Except`.
* Rust `sort_by`/`sorted_by_key` are stable sorts; they are modelled with
  `List.insertionSort`, which is stable and agrees with any stable sort for a
  total preorder comparator.
-/

namespace YaacCV

/-- Integer point, the embedding of `opencv::core::Point` (`i32` coordinates). -/
structure Pt where
  x : ℤ
  y : ℤ
  deriving DecidableEq

/-- Embedding of the `Line` struct of `cv.rs` (two points). -/
structure Line where
  p1 : Pt
  p2 : Pt
  deriving DecidableEq

/-- Embedding of the `Rect` struct of `cv.rs` (four named corners). -/
structure Rect where
  top_left : Pt
  top_right : Pt
  bottom_left : Pt
  bottom_right : Pt
  deriving DecidableEq

/-- The `Rect::top` accessor: the line from `top_left` to `top_right`. -/
def Rect.top (r : Rect) : Line := ⟨r.top_left, r.top_right⟩

/-- The `Rect::right` accessor: the line from `top_right` to `bottom_right`. -/
def Rect.right (r : Rect) : Line := ⟨r.top_right, r.bottom_right⟩

/-- The `Rect::bottom` accessor: the line from `bottom_right` to `bottom_left`. -/
def Rect.bottom (r : Rect) : Line := ⟨r.bottom_right, r.bottom_left⟩

/-- The `Rect::left` accessor: the line from `bottom_left` to `top_left`. -/
def Rect.left (r : Rect) : Line := ⟨r.bottom_left, r.top_left⟩

/-- Euclidean length of a `Line`, the embedding of `impl Geometry for Line`:
`((dx*dx + dy*dy) as f64).sqrt()` with `dx`, `dy` computed in `i32`. -/
noncomputable def Line.length (l : Line) : ℝ :=
  Real.sqrt ((((l.p2.x - l.p1.x) * (l.p2.x - l.p1.x) +
      (l.p2.y - l.p1.y) * (l.p2.y - l.p1.y) : ℤ) : ℝ))

/-- Embedding of `impl Into<Vector<Point2f>> for Rect`: the source-corner list
passed to `get_perspective_transform`, in the order
top-right, top-left, bottom-left, bottom-right. -/
def srcCorners (r : Rect) : List (ℝ × ℝ) :=
  [((r.top_right.x : ℝ), (r.top_right.y : ℝ)),
   ((r.top_left.x : ℝ), (r.top_left.y : ℝ)),
   ((r.bottom_left.x : ℝ), (r.bottom_left.y : ℝ)),
   ((r.bottom_right.x : ℝ), (r.bottom_right.y : ℝ))]

/-- Embedding of `imgproc_pipeline` line 394: `max_height` is the maximum of
the left and right edge lengths (the `f32` cast is idealised away). -/
noncomputable def maxHeight (r : Rect) : ℝ := max (r.left.length) (r.right.length)

/-- Embedding of `imgproc_pipeline` line 397: `max_width` is the maximum of
the top and bottom edge lengths (the `f32` cast is idealised away). -/
noncomputable def maxWidth (r : Rect) : ℝ := max (r.top.length) (r.bottom.length)

/-- Embedding of `imgproc_pipeline` lines 400-405: the destination-corner list
passed to `get_perspective_transform`. -/
noncomputable def dstCorners (r : Rect) : List (ℝ × ℝ) :=
  [((0 : ℝ), (0 : ℝ)),
   (maxWidth r - 1, (0 : ℝ)),
   (maxWidth r - 1, maxHeight r - 1),
   ((0 : ℝ), maxHeight r - 1)]

/-- Rust numeric cast `f as i32` for a real value: truncation toward zero
(saturation at the `i32` bounds is ignored; all values of interest are small). -/
noncomputable def rustTruncToInt (x : ℝ) : ℤ := if 0 ≤ x then ⌊x⌋ else ⌈x⌉

/-- Embedding of `imgproc_pipeline` line 419: the size of the output buffer of
`warp_perspective_def` is `Size::new(max_width as i32, max_height as i32)`. -/
noncomputable def outputSize (r : Rect) : ℤ × ℤ :=
  (rustTruncToInt (maxWidth r), rustTruncToInt (maxHeight r))

/-! ### Counter-clockwise vertex ordering (`Poly::order`) -/

/-- Embedding of the centroid computation inside `Poly::order`: componentwise
sum of the vertices divided by the vertex count, with Rust `i32` division
(truncation toward zero, hence `Int.tdiv`). -/
def Poly.center (ps : List Pt) : Pt :=
  ⟨Int.tdiv ((ps.map (·.x)).sum) ps.length, Int.tdiv ((ps.map (·.y)).sum) ps.length⟩

/-- Exact sort key standing for the angle `acos(p.y / ‖p‖)` computed in
`Poly::order` for a centroid-translated point `p`.

With `S = p.x² + p.y²` and `u = p.y / √S ∈ [-1, 1]`, `acos` is strictly
decreasing on `[-1, 1]`, so comparing angles `acos u` in ascending order is the
same as comparing `u` in descending order.  The map `u ↦ sign(u)·u²` is
strictly increasing on `[-1, 1]` and `sign(u)·u² = sign(p.y)·p.y²/S`, which is
the exact rational produced here via `mkRat`.  Hence for nonzero points:
`acos (u p) ≤ acos (u q)` iff `angleKey q ≤ angleKey p`, with equality of
angles iff equality of keys.  (For the zero point, which `Poly::order` filters
out before any angle is computed, the key is the junk value `mkRat _ 0 = 0`.) -/
def angleKey (p : Pt) : ℚ :=
  mkRat (if 0 ≤ p.y then p.y ^ 2 else -(p.y ^ 2)) (p.x ^ 2 + p.y ^ 2).toNat

/-- Comparator used to embed `pts_with_angles.sort_by(|(_, a), (_, b)| a.total_cmp(b))`:
the stored angle of `a` is at most the stored angle of `b`; by the order
reversal documented at `angleKey` this is `b.2 ≤ a.2` on keys.  (The angle
values the code compares are `acos` images in `[0, π]`, never NaN, so
`f64::total_cmp` agrees with the real-number order.) -/
def pairLe (a b : Pt × ℚ) : Prop := b.2 ≤ a.2

instance : DecidableRel pairLe := fun a b => inferInstanceAs (Decidable (b.2 ≤ a.2))

instance : IsTotal (Pt × ℚ) pairLe := ⟨fun a b => le_total b.2 a.2⟩

instance : IsTrans (Pt × ℚ) pairLe := ⟨fun _ _ _ h1 h2 => le_trans h2 h1⟩

/-- Embedding of `Poly::order` (cv.rs lines 116-146).  Mirrors the source
step by step:
* `reduce` over an empty vertex list fails (`?` returns `None`), otherwise the
  centroid is the truncated-integer mean of the vertices;
* every vertex is translated to centroid-relative coordinates and vertices of
  zero length are discarded (`p.length() > 0.0` iff `p.x² + p.y² > 0`);
* the angle list is computed from the *filtered* translated vertices, but is
  then zipped against the *unfiltered* original vertex list (`self.0.to_vec()`),
  exactly as the source does — when vertices were discarded the zip truncates
  and misaligns;
* the pairs are stably sorted by ascending angle and the points extracted. -/
def Poly.order (ps : List Pt) : Option (List Pt) :=
  if ps.isEmpty then none
  else
    let c := Poly.center ps
    let translated := ps.map (fun p => Pt.mk (p.x - c.x) (p.y - c.y))
    let pts := translated.filter (fun p => decide (0 < p.x ^ 2 + p.y ^ 2))
    let keys := pts.map angleKey
    let pairs := ps.zip keys
    some ((List.insertionSort pairLe pairs).map Prod.fst)

/-! ### Area ordering of polygons and maximum selection -/

/-- The comparison value used by `impl Ord for Poly` (cv.rs lines 169-176):
`contour_area_def(..).unwrap_or(0.0)`.  The area primitive is external and is
passed in as a function returning `Option ℚ` (`none` = failed computation);
a failed area is replaced by `0.0`.  After `unwrap_or(0.0)` both compared
values are ordinary numbers, so `f64::total_cmp` is the usual order. -/
def polyVal (area : List Pt → Option ℚ) (p : List Pt) : ℚ := (area p).getD 0

/-- One step of the fold underlying `Iterator::max`: keep the accumulator only
when it compares strictly greater than the new element, otherwise take the new
element (so of several equally-maximal elements the last one wins, as
documented for `Iterator::max`).  `f64::total_cmp` on the two
`unwrap_or(0.0)` values agrees with the rational order since neither value is
NaN. -/
def maxStep (area : List Pt → Option ℚ) (acc : Option (List Pt)) (x : List Pt) :
    Option (List Pt) :=
  match acc with
  | none => some x
  | some m => if polyVal area x < polyVal area m then some m else some x

/-- Embedding of `Iterator::max` with the `Ord` instance of `Poly` as used in
`imgproc_pipeline` line 378. -/
def iterMax (area : List Pt → Option ℚ) (l : List (List Pt)) : Option (List Pt) :=
  l.foldl (maxStep area) none

/-- Embedding of `imgproc_pipeline` lines 387-392: the winning ordered polygon
is turned into a `Rect` by the fixed index assignment
`top_left ← get(2)`, `top_right ← get(3)`, `bottom_right ← get(0)`,
`bottom_left ← get(1)`; any out-of-bounds `get` fails the pipeline. -/
def mkBiggestRect (pts : List Pt) : Option Rect := do
  let tl ← pts[2]?
  let tr ← pts[3]?
  let br ← pts[0]?
  let bl ← pts[1]?
  some { top_left := tl, top_right := tr, bottom_left := bl, bottom_right := br }

/-! ### Table structure extraction (`Table::try_from`) -/

/-- Embedding of `opencv::core::Rect` as used for cell bounding boxes. -/
structure Box where
  x : ℤ
  y : ℤ
  width : ℤ
  height : ℤ
  deriving DecidableEq

/-- Comparison by `y`, the key of `sorted_by_key(|b| b.y)`. -/
def boxLeY (a b : Box) : Prop := a.y ≤ b.y

instance : DecidableRel boxLeY := fun a b => inferInstanceAs (Decidable (a.y ≤ b.y))

instance : IsTotal Box boxLeY := ⟨fun a b => le_total a.y b.y⟩

instance : IsTrans Box boxLeY := ⟨fun _ _ _ h1 h2 => le_trans h1 h2⟩

/-- Comparison by `x`, the key of `sorted_by_key(|b| b.x)`. -/
def boxLeX (a b : Box) : Prop := a.x ≤ b.x

instance : DecidableRel boxLeX := fun a b => inferInstanceAs (Decidable (a.x ≤ b.x))

instance : IsTotal Box boxLeX := ⟨fun a b => le_total a.x b.x⟩

instance : IsTrans Box boxLeX := ⟨fun _ _ _ h1 h2 => le_trans h1 h2⟩

/-- Stable sort of boxes by ascending `y` (`sorted_by_key(|b| b.y)`). -/
def sortByY (bs : List Box) : List Box := List.insertionSort boxLeY bs

/-- Stable sort of boxes by ascending `x` (`sorted_by_key(|b| b.x)`). -/
def sortByX (bs : List Box) : List Box := List.insertionSort boxLeX bs

/-- The exact value of `boxes.iter().map(|b| b.height as f64).collect::<average::Mean>().mean()`:
the arithmetic mean of the box heights, as a rational.  On an empty box list
the `average` crate returns NaN; here `mkRat _ 0 = 0` is returned instead,
which is immaterial because the row clustering of an empty box list consumes
nothing either way (`clusterRows _ [] = []`). -/
def meanHeight (bs : List Box) : ℚ := mkRat ((bs.map (·.height)).sum) bs.length

/-- Exact decision of the `take_while` predicate
`b.y as f64 <= current.y as f64 + mean_height / 2.0` of `Table::try_from`.
For `mean : ℚ` with numerator `n` and (positive) denominator `d`:
`(b.y : ℚ) ≤ cury + mean / 2  ↔  2 * (b.y - cury) * d ≤ n`.
This equivalence is proved below as `rowPred_eq_true_iff`. -/
def rowPred (mean : ℚ) (cury : ℤ) (b : Box) : Bool :=
  decide (2 * (b.y - cury) * (mean.den : ℤ) ≤ mean.num)

/-- Fuel-indexed worker for the `batching` loop of `Table::try_from`.  Each
iteration of the closure:
* peeks the next remaining box (`it.clone().next()?`) as the row anchor —
  when the iterator is exhausted the batching ends;
* `take_while` consumes every leading box satisfying `rowPred` into the row
  **and additionally consumes (and discards) the first failing box**, which is
  the documented behaviour of `Iterator::take_while` on the underlying
  iterator — hence the recursion continues on `(dropWhile ..).drop 1`;
* the row is stably sorted by ascending `x`.
One unit of fuel is spent per produced row; since every iteration consumes at
least one underlying element, `fuel = length` fully evaluates the loop
(`clusterRowsAux_congr` below proves fuel irrelevance). -/
def clusterRowsAux (mean : ℚ) : Nat → List Box → List (List Box)
  | 0, _ => []
  | _ + 1, [] => []
  | fuel + 1, b :: rest =>
    sortByX ((b :: rest).takeWhile (rowPred mean b.y)) ::
      clusterRowsAux mean fuel (((b :: rest).dropWhile (rowPred mean b.y)).drop 1)

/-- The row-clustering loop of `Table::try_from` (cv.rs lines 289-303), given
the mean height and the `y`-sorted box list. -/
def clusterRows (mean : ℚ) (l : List Box) : List (List Box) :=
  clusterRowsAux mean l.length l

/-- The `rows` value computed by `Table::try_from` from the bounding boxes
that survived `filter_map(opencv::Result::ok)`: sort by ascending `y`, compute
the mean height, cluster into rows. -/
def tableRowsOf (bs : List Box) : List (List Box) :=
  clusterRows (meanHeight bs) (sortByY bs)

/-- Embedding of `Table::try_from` downstream of the external image
primitives: given the bounding boxes obtained from contour tracing, the
construction always succeeds with `Ok(Table { image, rows })` — the only `?`
operators in the source act on the external OpenCV calls, none on the box
processing.  The table is represented by its `rows`. -/
def tableTryFrom (bs : List Box) : Except String (List (List Box)) :=
  Except.ok (tableRowsOf bs)

/-! ### Supporting lemmas -/

/-- Each batching step consumes at least one box: the list left for the next
step is strictly shorter. -/
lemma remLength_lt (p : Box → Bool) (b : Box) (rest : List Box) :
    ((((b :: rest).dropWhile p).drop 1)).length < (b :: rest).length := by
  have h : List.Sublist ((b :: rest).dropWhile p) (b :: rest) := List.dropWhile_sublist p
  have hle := h.length_le
  simp only [List.length_drop, List.length_cons] at *
  omega

lemma clusterRowsAux_nil (mean : ℚ) (fuel : Nat) : clusterRowsAux mean fuel [] = [] := by
  cases fuel <;> rfl

/-- Fuel irrelevance: any fuel at least the list length produces the same
batching result, so `clusterRows` is well defined. -/
lemma clusterRowsAux_congr (mean : ℚ) (f1 f2 : Nat) (l : List Box)
    (h1 : l.length ≤ f1) (h2 : l.length ≤ f2) :
    clusterRowsAux mean f1 l = clusterRowsAux mean f2 l := by
  induction f1 generalizing f2 l with
  | zero =>
    cases l with
    | nil => rw [clusterRowsAux_nil, clusterRowsAux_nil]
    | cons b rest => simp at h1
  | succ f ih =>
    cases l with
    | nil => rw [clusterRowsAux_nil, clusterRowsAux_nil]
    | cons b rest =>
      cases f2 with
      | zero => simp at h2
      | succ g =>
        simp only [clusterRowsAux]
        have hlt := remLength_lt (rowPred mean b.y) b rest
        simp only [List.length_cons] at h1 h2 hlt
        congr 1
        exact ih g _ (by omega) (by omega)

lemma clusterRows_nil (mean : ℚ) : clusterRows mean [] = [] := rfl

/-- The characteristic unfolding of one `batching` iteration. -/
lemma clusterRows_cons (mean : ℚ) (b : Box) (rest : List Box) :
    clusterRows mean (b :: rest) =
      sortByX ((b :: rest).takeWhile (rowPred mean b.y)) ::
        clusterRows mean (((b :: rest).dropWhile (rowPred mean b.y)).drop 1) := by
  have hlt := remLength_lt (rowPred mean b.y) b rest
  simp only [List.length_cons] at hlt
  show clusterRowsAux mean (b :: rest).length (b :: rest) = _
  simp only [List.length_cons, clusterRowsAux]
  congr 1
  rw [clusterRows]
  exact clusterRowsAux_congr mean rest.length _ _ (by omega) le_rfl

/-- Faithfulness of the integer decision procedure `rowPred`: it decides the
exact rational (hence idealised `f64`) comparison of the source. -/
lemma rowPred_eq_true_iff (mean : ℚ) (cury : ℤ) (b : Box) :
    rowPred mean cury b = true ↔ (b.y : ℚ) ≤ (cury : ℚ) + mean / 2 := by
  rw [rowPred, decide_eq_true_iff]
  have hcast : ((2 * (b.y - cury) : ℤ) : ℚ) ≤ mean ↔
      2 * (b.y - cury) * (mean.den : ℤ) ≤ mean.num := by
    rw [Rat.le_def, Rat.num_intCast, Rat.den_intCast]
    simp
  constructor
  · intro h
    have h2 := hcast.mpr h
    push_cast at h2
    linarith
  · intro h
    have h2 : ((2 * (b.y - cury) : ℤ) : ℚ) ≤ mean := by
      push_cast
      linarith
    exact hcast.mp h2

lemma meanHeight_nonneg (bs : List Box) (h : ∀ b ∈ bs, 0 ≤ b.height) :
    0 ≤ meanHeight bs := by
  rw [meanHeight, Rat.mkRat_eq_divInt]
  apply Rat.divInt_nonneg
  · apply List.sum_nonneg
    intro x hx
    rcases List.mem_map.mp hx with ⟨b, hb, rfl⟩
    exact h b hb
  · exact_mod_cast Nat.zero_le bs.length

lemma zip_self_map {α β : Type} (l : List α) (f : α → β) :
    l.zip (l.map f) = l.map (fun x => (x, f x)) := by
  induction l with
  | nil => rfl
  | cons a t ih => simp [ih]

/-- A successful `maxStep` from a `some` accumulator never decreases the
tracked comparison value. -/
lemma maxStep_some_le (area : List Pt → Option ℚ) (a x m : List Pt)
    (h : maxStep area (some a) x = some m) :
    polyVal area a ≤ polyVal area m := by
  by_cases hc : polyVal area x < polyVal area a
  · simp only [maxStep, if_pos hc] at h
    cases h
    exact le_refl _
  · simp only [maxStep, if_neg hc] at h
    cases h
    exact le_of_not_lt hc

/-- The fold underlying `iterMax`, started from a `some` accumulator, returns
an element whose value dominates the accumulator value. -/
lemma foldl_maxStep_acc_le (area : List Pt → Option ℚ) :
    ∀ (l : List (List Pt)) (a m : List Pt),
      l.foldl (maxStep area) (some a) = some m → polyVal area a ≤ polyVal area m
  | [], a, m, h => by
    cases h
    exact le_refl _
  | x :: t, a, m, h => by
    rw [List.foldl_cons] at h
    by_cases hc : polyVal area x < polyVal area a
    · have hstep : maxStep area (some a) x = some a := by simp [maxStep, hc]
      rw [hstep] at h
      exact foldl_maxStep_acc_le area t a m h
    · have hstep : maxStep area (some a) x = some x := by simp [maxStep, hc]
      rw [hstep] at h
      exact le_trans (le_of_not_lt hc) (foldl_maxStep_acc_le area t x m h)

/-- The fold underlying `iterMax`, started from a `some` accumulator, returns
an element whose value dominates every list element value. -/
lemma foldl_maxStep_mem_le (area : List Pt → Option ℚ) :
    ∀ (l : List (List Pt)) (a m : List Pt),
      l.foldl (maxStep area) (some a) = some m →
      ∀ x ∈ l, polyVal area x ≤ polyVal area m
  | [], _, _, _ => by simp
  | x :: t, a, m, h => by
    intro y hy
    rw [List.foldl_cons] at h
    rcases List.mem_cons.mp hy with rfl | hyt
    · by_cases hc : polyVal area y < polyVal area a
      · have hstep : maxStep area (some a) y = some a := by simp [maxStep, hc]
        rw [hstep] at h
        exact le_trans (le_of_lt hc) (foldl_maxStep_acc_le area t a m h)
      · have hstep : maxStep area (some a) y = some y := by simp [maxStep, hc]
        rw [hstep] at h
        exact foldl_maxStep_acc_le area t y m h
    · by_cases hc : polyVal area x < polyVal area a
      · have hstep : maxStep area (some a) x = some a := by simp [maxStep, hc]
        rw [hstep] at h
        exact foldl_maxStep_mem_le area t a m h y hyt
      · have hstep : maxStep area (some a) x = some x := by simp [maxStep, hc]
        rw [hstep] at h
        exact foldl_maxStep_mem_le area t x m h y hyt

/-- The polygon selected by `iterMax` has a comparison value dominating every
candidate. -/
lemma iterMax_is_max (area : List Pt → Option ℚ) (l : List (List Pt))
    (m : List Pt) (h : iterMax area l = some m) :
    ∀ x ∈ l, polyVal area x ≤ polyVal area m := by
  cases l with
  | nil => cases h
  | cons x t =>
    intro y hy
    rw [iterMax, List.foldl_cons] at h
    have hstep : maxStep area none x = some x := rfl
    rw [hstep] at h
    rcases List.mem_cons.mp hy with rfl | hyt
    · exact foldl_maxStep_acc_le area t y m h
    · exact foldl_maxStep_mem_le area t x m h y hyt

/-! ### Claim theorems -/

/-- C1 (counterexample): the claim states that with zero detected boxes the
`Table` construction fails with a `NoCellsFound` error and does not return a
table value.  The code has no such error path: `Table::try_from` returns `Ok`
on the empty box list (the batching loop just produces no rows), as witnessed
here by `tableTryFrom` succeeding on `[]`. -/
theorem c1_counterexample : (tableTryFrom []).isOk = true := rfl

/-- C1 (amended): with zero detected boxes, table-structure extraction
succeeds and returns a table whose row list is empty; no `NoCellsFound`-style
error exists in the code. -/
theorem c1_no_cells_gives_empty_table : tableTryFrom [] = Except.ok [] := rfl

/-- C2 (code bug): the claim — faithful to the specified algorithm — says row
clustering consumes every box into exactly one row.  The code combines
`Iterator::take_while` with `itertools::batching`; `take_while` consumes and
discards the first box that fails the row-window predicate, so the anchor box
of every subsequent row is silently dropped.  Concrete run: three boxes at
`y = 0, 10, 20` of height 2 with `mean_height = 2` produce the rows
`[[y0], [y20]]` and the middle box (`y = 10`) appears in no row. -/
theorem c2_clustering_drops_a_box :
    clusterRows 2 [⟨0, 0, 10, 2⟩, ⟨0, 10, 10, 2⟩, ⟨0, 20, 10, 2⟩] =
      [[⟨0, 0, 10, 2⟩], [⟨0, 20, 10, 2⟩]] ∧
    (⟨0, 10, 10, 2⟩ : Box) ∉
      (clusterRows 2 [⟨0, 0, 10, 2⟩, ⟨0, 10, 10, 2⟩, ⟨0, 20, 10, 2⟩]).flatten :=
  ⟨by decide, by decide⟩

/-- C3 (code bug): for uniform height `h` and `y`-spacing greater than `h`
the claim demands one singleton row per box.  Because `take_while` discards
the first out-of-window box (see C2), every second box is lost: two boxes of
height 2 at `y = 0` and `y = 3` (spacing `3 > 2`, mean height exactly 2)
produce a single row `[[y0]]` instead of `[[y0], [y3]]`. -/
theorem c3_uniform_spacing_merges_nothing_but_drops :
    tableRowsOf [⟨0, 0, 10, 2⟩, ⟨0, 3, 10, 2⟩] = [[⟨0, 0, 10, 2⟩]] := by decide

/-- C5 (counterexample): the claim states the fixed permutation sends sorted
index 0 to the bottom-left role and index 1 to bottom-right.  The code does
the opposite (`bottom_right ← get(0)`, `bottom_left ← get(1)`): for the
ordered output of the axis-aligned square below, the code produces
bottom-left `(0,10)` and bottom-right `(10,10)`, not the claimed assignment. -/
theorem c5_counterexample :
    Poly.order [⟨0, 0⟩, ⟨10, 0⟩, ⟨10, 10⟩, ⟨0, 10⟩] =
      some [⟨10, 10⟩, ⟨0, 10⟩, ⟨0, 0⟩, ⟨10, 0⟩] ∧
    mkBiggestRect [⟨10, 10⟩, ⟨0, 10⟩, ⟨0, 0⟩, ⟨10, 0⟩] ≠
      some { top_left := ⟨0, 0⟩, top_right := ⟨10, 0⟩,
             bottom_left := ⟨10, 10⟩, bottom_right := ⟨0, 10⟩ } :=
  ⟨by decide, by decide⟩

/-- C5 (amended): for every successfully ordered polygon with at least four
vertices, the corner roles are assigned by the fixed permutation
`top_left ← index 2`, `top_right ← index 3`, `bottom_right ← index 0`,
`bottom_left ← index 1` (i.e. `[2,3,1,0]` in role order TL, TR, BL, BR). -/
theorem c5_fixed_permutation (a b c d : Pt) (rest : List Pt) :
    mkBiggestRect (a :: b :: c :: d :: rest) =
      some { top_left := c, top_right := d, bottom_left := b, bottom_right := a } := by
  simp [mkBiggestRect]

/-- C7: the rectifier computes `max_height` as the maximum of the left and
right edge lengths and `max_width` as the maximum of the top and bottom edge
lengths, and feeds `get_perspective_transform` the correspondence
top-right ↦ `(0,0)`, top-left ↦ `(max_width-1, 0)`,
bottom-left ↦ `(max_width-1, max_height-1)`,
bottom-right ↦ `(0, max_height-1)`, in exactly that order. -/
theorem c7_rectifier_correspondence (r : Rect) :
    maxHeight r = max (r.left.length) (r.right.length) ∧
    maxWidth r = max (r.top.length) (r.bottom.length) ∧
    (srcCorners r).zip (dstCorners r) =
      [(((r.top_right.x : ℝ), (r.top_right.y : ℝ)), ((0 : ℝ), (0 : ℝ))),
       (((r.top_left.x : ℝ), (r.top_left.y : ℝ)), (maxWidth r - 1, (0 : ℝ))),
       (((r.bottom_left.x : ℝ), (r.bottom_left.y : ℝ)),
         (maxWidth r - 1, maxHeight r - 1)),
       (((r.bottom_right.x : ℝ), (r.bottom_right.y : ℝ)),
         ((0 : ℝ), maxHeight r - 1))] :=
  ⟨rfl, rfl, rfl⟩

/-- Area function that fails on every polygon, exercising the
`contour_area_def(..)` failure path of the `Ord` instance. -/
def failArea : List Pt → Option ℚ := fun _ => none

/-- C4 (counterexample): the claim states a polygon whose area computation
fails compares as NaN and is never selected as the maximum.  The `Ord`
instance actually used by `.max()` replaces a failed area with `0.0`
(`unwrap_or(0.0)`), not NaN: when the failed-area polygon is the only
4-vertex candidate, `.max()` selects it. -/
theorem c4_counterexample :
    failArea [⟨0, 0⟩, ⟨1, 0⟩, ⟨1, 1⟩, ⟨0, 1⟩] = none ∧
    iterMax failArea [[⟨0, 0⟩, ⟨1, 0⟩, ⟨1, 1⟩, ⟨0, 1⟩]] =
      some [⟨0, 0⟩, ⟨1, 0⟩, ⟨1, 1⟩, ⟨0, 1⟩] :=
  ⟨rfl, rfl⟩

/-- C4 (amended): in the maximum selection a failed area compares as `0.0`
(via `unwrap_or(0.0)` in `Ord::cmp`), so a failed-area polygon can be
selected — e.g. as sole candidate — but never over a candidate whose area
computation succeeds with a positive value: whenever some candidate has a
positive computed area, the selected polygon also has a positive computed
area (in particular its area computation did not fail). -/
theorem c4_positive_area_beats_failed (area : List Pt → Option ℚ)
    (l : List (List Pt)) (q : List Pt) (aq : ℚ)
    (hq : q ∈ l) (ha : area q = some aq) (hpos : 0 < aq)
    (p : List Pt) (hmax : iterMax area l = some p) :
    ∃ ap, area p = some ap ∧ 0 < ap := by
  have hle := iterMax_is_max area l p hmax q hq
  have hvq : polyVal area q = aq := by rw [polyVal, ha]; rfl
  have hvp : 0 < polyVal area p := lt_of_lt_of_le (hvq ▸ hpos) hle
  cases hp : area p with
  | none =>
    rw [polyVal, hp] at hvp
    simp at hvp
  | some ap =>
    refine ⟨ap, rfl, ?_⟩
    rwa [polyVal, hp] at hvp

/-- Area function for the C4 witness: succeeds with area 16 on the large
square, fails elsewhere. -/
def someArea : List Pt → Option ℚ := fun ps =>
  if ps = [⟨0, 0⟩, ⟨4, 0⟩, ⟨4, 4⟩, ⟨0, 4⟩] then some 16 else none

/-- C4 (witness): applying the amended theorem to a concrete candidate list
holding one failed-area polygon and one positive-area polygon. -/
theorem c4_witness :
    ∃ ap, someArea [⟨0, 0⟩, ⟨4, 0⟩, ⟨4, 4⟩, ⟨0, 4⟩] = some ap ∧ 0 < ap :=
  c4_positive_area_beats_failed someArea
    [[⟨0, 0⟩, ⟨1, 0⟩, ⟨1, 1⟩, ⟨0, 1⟩], [⟨0, 0⟩, ⟨4, 0⟩, ⟨4, 4⟩, ⟨0, 4⟩]]
    [⟨0, 0⟩, ⟨4, 0⟩, ⟨4, 4⟩, ⟨0, 4⟩] 16 (by decide) (by decide) (by decide)
    [⟨0, 0⟩, ⟨4, 0⟩, ⟨4, 4⟩, ⟨0, 4⟩] (by decide)

/-- C6 (counterexample): the claim states that a non-empty polygon all of
whose vertices coincide with its centroid makes the ordering operation fail.
The code instead returns `Some` of the *empty* vertex vector: the degenerate
vertices are filtered out, the angle list is empty, the zip against the
original vertices is empty, and `Some([])` is returned — not a failure. -/
theorem c6_counterexample :
    (Poly.order [⟨1, 1⟩, ⟨1, 1⟩, ⟨1, 1⟩]).isSome = true := by decide

/-- C6 (amended): for every non-empty polygon all of whose vertices coincide
with the (integer-truncated) centroid, `Poly::order` succeeds and returns the
empty vertex sequence; the only failing input of `Poly::order` is the empty
polygon. -/
theorem c6_all_centroid_returns_empty (ps : List Pt) (hne : ps ≠ [])
    (hall : ∀ p ∈ ps, p = Poly.center ps) : Poly.order ps = some [] := by
  have hie : ps.isEmpty = false := by
    cases ps with
    | nil => exact absurd rfl hne
    | cons a l => rfl
  have hfil : (ps.map (fun p =>
        Pt.mk (p.x - (Poly.center ps).x) (p.y - (Poly.center ps).y))).filter
      (fun p => decide (0 < p.x ^ 2 + p.y ^ 2)) = [] := by
    rw [List.filter_eq_nil_iff]
    intro q hq
    rcases List.mem_map.mp hq with ⟨p, hp, rfl⟩
    rw [hall p hp]
    simp
  simp only [Poly.order, hie, Bool.false_eq_true, if_false]
  rw [hfil]
  simp

/-- C6 (witness): the amended theorem applied to the threefold-repeated
vertex `(1,1)`, whose truncated centroid is `(1,1)` itself. -/
theorem c6_witness :
    ([⟨1, 1⟩, ⟨1, 1⟩, ⟨1, 1⟩] : List Pt) ≠ [] ∧
    Poly.order [⟨1, 1⟩, ⟨1, 1⟩, ⟨1, 1⟩] = some [] :=
  ⟨by decide, c6_all_centroid_returns_empty _ (by decide) (by decide)⟩

/-- Concrete quadrilateral for C8 whose width is the non-integral `√8` while
its height is exactly 3: corners `(0,0), (2,2), (0,3), (2,5)` as
top-left, top-right, bottom-left, bottom-right. -/
def c8Rect : Rect := ⟨⟨0, 0⟩, ⟨2, 2⟩, ⟨0, 3⟩, ⟨2, 5⟩⟩

lemma c8Rect_maxWidth : maxWidth c8Rect = Real.sqrt 8 := by
  rw [maxWidth, Line.length, Line.length]
  norm_num [Rect.top, Rect.bottom, c8Rect]

lemma c8Rect_maxHeight : maxHeight c8Rect = 3 := by
  rw [maxHeight, Line.length, Line.length]
  norm_num [Rect.left, Rect.right, c8Rect]
  rw [show (9 : ℝ) = 3 ^ 2 by norm_num]
  exact Real.sqrt_sq (by norm_num)

lemma sqrt8_lt_three : Real.sqrt 8 < 3 :=
  (Real.sqrt_lt' (by norm_num)).mpr (by norm_num)

lemma sqrt8_ge_five_halves : (5 / 2 : ℝ) ≤ Real.sqrt 8 :=
  (Real.le_sqrt (by norm_num) (by norm_num)).mpr (by norm_num)

/-- C8 (counterexample): the claim states the warp output buffer has size
`(round(max_width), round(max_height))` with round-to-nearest for all real
dimension values.  The code casts with `as i32`, which truncates toward zero:
for the quadrilateral `c8Rect` the width is `√8 ≈ 2.83`, truncated to 2 while
rounding gives 3. -/
theorem c8_counterexample :
    outputSize c8Rect ≠ (round (maxWidth c8Rect), round (maxHeight c8Rect)) := by
  have h1 := sqrt8_ge_five_halves
  have h2 := sqrt8_lt_three
  have hfloor : ⌊Real.sqrt 8⌋ = 2 := by
    rw [Int.floor_eq_iff]
    constructor
    · push_cast
      linarith
    · push_cast
      linarith
  have hround : round (Real.sqrt 8) = 3 := by
    rw [round_eq, Int.floor_eq_iff]
    constructor
    · push_cast
      linarith
    · push_cast
      linarith
  rw [outputSize, c8Rect_maxWidth, c8Rect_maxHeight, rustTruncToInt, rustTruncToInt]
  rw [if_pos (Real.sqrt_nonneg 8), if_pos (by norm_num : (0:ℝ) ≤ 3)]
  rw [hfloor, hround]
  intro hcontra
  rw [Prod.mk.injEq] at hcontra
  exact absurd hcontra.1 (by norm_num)

/-- C8 (amended): the warp output buffer has size
`(⌊max_width⌋, ⌊max_height⌋)`: the `as i32` cast truncates toward zero, which
for the (always nonnegative) dimension values is the floor — not
round-to-nearest. -/
theorem c8_output_size_truncates (r : Rect) :
    outputSize r = (⌊maxWidth r⌋, ⌊maxHeight r⌋) := by
  have hw : 0 ≤ maxWidth r := by
    rw [maxWidth]
    exact le_trans (Real.sqrt_nonneg _) (le_max_left _ _)
  have hh : 0 ≤ maxHeight r := by
    rw [maxHeight]
    exact le_trans (Real.sqrt_nonneg _) (le_max_left _ _)
  rw [outputSize, rustTruncToInt, rustTruncToInt, if_pos hw, if_pos hh]

/-- Every box of every produced row comes from the input box list. -/
lemma clusterRows_mem (mean : ℚ) :
    ∀ (l : List Box), ∀ r ∈ clusterRows mean l, ∀ b ∈ r, b ∈ l
  | [] => by simp [clusterRows_nil]
  | a :: rest => by
    intro r hr b hb
    rw [clusterRows_cons] at hr
    rcases List.mem_cons.mp hr with rfl | h
    · have hb2 : b ∈ (a :: rest).takeWhile (rowPred mean a.y) := by
        simpa [sortByX] using hb
      exact (List.takeWhile_sublist _).subset hb2
    · have hbl := clusterRows_mem mean _ r h b hb
      have hsub : List.Sublist (((a :: rest).dropWhile (rowPred mean a.y)).drop 1)
          (a :: rest) :=
        List.Sublist.trans (List.drop_sublist 1 _) (List.dropWhile_sublist _)
      exact hsub.subset hbl
termination_by l => l.length
decreasing_by simpa using remLength_lt _ _ _

/-- Every produced row is sorted by ascending `x` (it is the output of
`sorted_by_key(|b| b.x)`). -/
lemma clusterRows_sorted_rows (mean : ℚ) :
    ∀ (l : List Box), ∀ r ∈ clusterRows mean l, List.Sorted boxLeX r
  | [] => by simp [clusterRows_nil]
  | a :: rest => by
    intro r hr
    rw [clusterRows_cons] at hr
    rcases List.mem_cons.mp hr with rfl | h
    · exact List.sorted_insertionSort boxLeX _
    · exact clusterRows_sorted_rows mean _ r h
termination_by l => l.length
decreasing_by simpa using remLength_lt _ _ _

/-- With a nonnegative mean height every produced row is non-empty: the
anchor box always satisfies its own window predicate. -/
lemma clusterRows_rows_nonempty (mean : ℚ) (hm : 0 ≤ mean) :
    ∀ (l : List Box), ∀ r ∈ clusterRows mean l, r ≠ []
  | [] => by simp [clusterRows_nil]
  | a :: rest => by
    intro r hr
    rw [clusterRows_cons] at hr
    rcases List.mem_cons.mp hr with rfl | h
    · have hpa : rowPred mean a.y a = true := by
        rw [rowPred, decide_eq_true_iff]
        have : (2 : ℤ) * (a.y - a.y) * (mean.den : ℤ) = 0 := by ring
        rw [this]
        exact Rat.num_nonneg.mpr hm
      rw [List.takeWhile_cons_of_pos hpa]
      intro hcontra
      have hlen := congrArg List.length hcontra
      rw [sortByX, List.length_insertionSort] at hlen
      simp at hlen
    · exact clusterRows_rows_nonempty mean hm _ r h
termination_by l => l.length
decreasing_by simpa using remLength_lt _ _ _

/-- In a `y`-sorted list, every box remaining after a batching step fails the
anchor's window inequality (the first failing box was discarded by
`take_while`; all boxes after it have `y` at least as large). -/
lemma rem_y_gt (mean : ℚ) (cury : ℤ) :
    ∀ (l : List Box), List.Sorted boxLeY l →
      ∀ c ∈ (l.dropWhile (rowPred mean cury)).drop 1,
        ¬ (2 * (c.y - cury) * (mean.den : ℤ) ≤ mean.num) := by
  intro l
  induction l with
  | nil => simp
  | cons a rest ih =>
    intro hs c hc
    rw [List.dropWhile_cons] at hc
    by_cases hp : rowPred mean cury a = true
    · rw [if_pos hp] at hc
      exact ih (List.sorted_cons.mp hs).2 c hc
    · rw [if_neg hp] at hc
      simp only [List.drop_succ_cons, List.drop_zero] at hc
      intro hcle
      have hay : boxLeY a c := (List.sorted_cons.mp hs).1 c hc
      have hden : (0 : ℤ) ≤ (mean.den : ℤ) := Int.ofNat_nonneg _
      have hmono : 2 * (a.y - cury) * (mean.den : ℤ) ≤
          2 * (c.y - cury) * (mean.den : ℤ) := by
        apply mul_le_mul_of_nonneg_right _ hden
        have : a.y ≤ c.y := hay
        linarith
      rw [rowPred] at hp
      simp only [decide_eq_true_eq] at hp
      exact hp (le_trans hmono hcle)

/-- Rows produced from a `y`-sorted box list are pairwise separated: every
box of an earlier row has strictly smaller `y` than every box of a later
row.  In particular the rows are ordered by ascending `y` of their anchors. -/
lemma clusterRows_pairwise (mean : ℚ) :
    ∀ (l : List Box), List.Sorted boxLeY l →
      List.Pairwise (fun r1 r2 => ∀ a ∈ r1, ∀ c ∈ r2, a.y < c.y) (clusterRows mean l)
  | [] => by simp [clusterRows_nil]
  | b :: rest => by
    intro hs
    rw [clusterRows_cons]
    have hrem_sorted :
        List.Sorted boxLeY (((b :: rest).dropWhile (rowPred mean b.y)).drop 1) := by
      have hsub : List.Sublist (((b :: rest).dropWhile (rowPred mean b.y)).drop 1)
          (b :: rest) :=
        List.Sublist.trans (List.drop_sublist 1 _) (List.dropWhile_sublist _)
      exact hs.sublist hsub
    refine List.Pairwise.cons ?_ (clusterRows_pairwise mean _ hrem_sorted)
    intro r' hr' a ha c hc
    have ha2 : a ∈ (b :: rest).takeWhile (rowPred mean b.y) := by
      simpa [sortByX] using ha
    have hpa : rowPred mean b.y a = true := List.mem_takeWhile_imp ha2
    rw [rowPred, decide_eq_true_eq] at hpa
    have hcmem : c ∈ ((b :: rest).dropWhile (rowPred mean b.y)).drop 1 :=
      clusterRows_mem mean _ r' hr' c hc
    have hcgt := rem_y_gt mean b.y (b :: rest) hs c hcmem
    push_neg at hcgt
    have hmul : 2 * (a.y - b.y) * (mean.den : ℤ) < 2 * (c.y - b.y) * (mean.den : ℤ) :=
      lt_of_le_of_lt hpa hcgt
    have hden : (0 : ℤ) ≤ (mean.den : ℤ) := Int.ofNat_nonneg _
    have := lt_of_mul_lt_mul_right hmul hden
    linarith
termination_by l => l.length
decreasing_by simpa using remLength_lt _ _ _

/-- C9: every table produced by table-structure extraction satisfies the
invariant — each row is non-empty and sorted by ascending `x`, and the rows
are separated in `y`: every box of an earlier row (in particular its anchor)
has strictly smaller `y` than every box of a later row, so rows are ordered
by ascending `y` of their first detected member.  The hypothesis states that
the detected boxes have nonnegative heights, which is guaranteed for
`bounding_rect` outputs. -/
theorem c9_rows_invariant (bs : List Box) (hh : ∀ b ∈ bs, 0 ≤ b.height) :
    (∀ r ∈ tableRowsOf bs, r ≠ [] ∧ List.Sorted boxLeX r) ∧
    List.Pairwise (fun r1 r2 => ∀ a ∈ r1, ∀ c ∈ r2, a.y < c.y) (tableRowsOf bs) := by
  have hm : 0 ≤ meanHeight bs := meanHeight_nonneg bs hh
  have hsorted : List.Sorted boxLeY (sortByY bs) := List.sorted_insertionSort boxLeY bs
  constructor
  · intro r hr
    exact ⟨clusterRows_rows_nonempty _ hm _ r hr, clusterRows_sorted_rows _ _ r hr⟩
  · exact clusterRows_pairwise _ _ hsorted

/-- C9 (witness): the invariant instantiated on a concrete detection result
with two boxes on one line (given in reversed `x` order) and one lower box. -/
theorem c9_witness :
    (∀ r ∈ tableRowsOf [⟨4, 0, 5, 2⟩, ⟨0, 0, 5, 2⟩, ⟨0, 10, 5, 2⟩],
      r ≠ [] ∧ List.Sorted boxLeX r) ∧
    List.Pairwise (fun r1 r2 => ∀ a ∈ r1, ∀ c ∈ r2, a.y < c.y)
      (tableRowsOf [⟨4, 0, 5, 2⟩, ⟨0, 0, 5, 2⟩, ⟨0, 10, 5, 2⟩]) :=
  c9_rows_invariant _ (by decide)

/-- When no vertex coincides with the truncated centroid, `Poly::order`
discards nothing: the result is exactly the stable sort of the vertices
paired with their own angle keys. -/
lemma order_eq_of_no_centroid (ps : List Pt) (hne : ps ≠ [])
    (hc : ∀ p ∈ ps, p ≠ Poly.center ps) :
    Poly.order ps = some ((List.insertionSort pairLe
      (ps.map (fun p => (p,
        angleKey ⟨p.x - (Poly.center ps).x, p.y - (Poly.center ps).y⟩)))).map
      Prod.fst) := by
  have hie : ps.isEmpty = false := by
    cases ps with
    | nil => exact absurd rfl hne
    | cons a l => rfl
  have hfil : (ps.map (fun p =>
        Pt.mk (p.x - (Poly.center ps).x) (p.y - (Poly.center ps).y))).filter
      (fun p => decide (0 < p.x ^ 2 + p.y ^ 2)) =
      ps.map (fun p =>
        Pt.mk (p.x - (Poly.center ps).x) (p.y - (Poly.center ps).y)) := by
    rw [List.filter_eq_self]
    intro q hq
    rcases List.mem_map.mp hq with ⟨p, hp, rfl⟩
    simp only [decide_eq_true_eq]
    have hne2 := hc p hp
    show 0 < (p.x - (Poly.center ps).x) ^ 2 + (p.y - (Poly.center ps).y) ^ 2
    by_cases hx : p.x - (Poly.center ps).x = 0
    · have hy : p.y - (Poly.center ps).y ≠ 0 := by
        intro hy
        apply hne2
        have hx2 : p.x = (Poly.center ps).x := by linarith
        have hy2 : p.y = (Poly.center ps).y := by linarith
        cases p
        simp_all
      have h1 : 0 < (p.y - (Poly.center ps).y) ^ 2 :=
        lt_of_le_of_ne (sq_nonneg _) (Ne.symm (pow_ne_zero 2 hy))
      nlinarith [sq_nonneg (p.x - (Poly.center ps).x)]
    · have h1 : 0 < (p.x - (Poly.center ps).x) ^ 2 :=
        lt_of_le_of_ne (sq_nonneg _) (Ne.symm (pow_ne_zero 2 hx))
      nlinarith [sq_nonneg (p.y - (Poly.center ps).y)]
  simp only [Poly.order, hie, Bool.false_eq_true, if_false]
  rw [hfil, List.map_map, zip_self_map]
  rfl

/-- C10 (counterexample): ordering is not idempotent on every valid 4-vertex
convex polygon.  For the unit square the vertex `(0,0)` coincides with the
truncated centroid and is discarded, and the zip against the unfiltered
vertex list misaligns the angles: the first ordering returns three vertices,
re-ordering those returns two, so order ∘ order ≠ order at this input. -/
theorem c10_counterexample :
    Poly.order [⟨0, 0⟩, ⟨1, 0⟩, ⟨1, 1⟩, ⟨0, 1⟩] = some [⟨1, 1⟩, ⟨1, 0⟩, ⟨0, 0⟩] ∧
    Poly.order [⟨1, 1⟩, ⟨1, 0⟩, ⟨0, 0⟩] = some [⟨1, 1⟩, ⟨1, 0⟩] ∧
    (Poly.order [⟨0, 0⟩, ⟨1, 0⟩, ⟨1, 1⟩, ⟨0, 1⟩]).bind Poly.order ≠
      Poly.order [⟨0, 0⟩, ⟨1, 0⟩, ⟨1, 1⟩, ⟨0, 1⟩] :=
  ⟨by decide, by decide, by decide⟩

/-- The centroid is invariant under permutation of the vertex list. -/
lemma center_perm_eq {l1 l2 : List Pt} (h : l1.Perm l2) :
    Poly.center l1 = Poly.center l2 := by
  rw [Poly.center, Poly.center, (h.map (fun p => p.x)).sum_eq,
    (h.map (fun p => p.y)).sum_eq, h.length_eq]

/-- Extracting the points of the sorted point-key pairs permutes the input
points. -/
lemma sort_pairs_fst_perm (f : Pt → ℚ) (l : List Pt) :
    ((List.insertionSort pairLe (l.map (fun p => (p, f p)))).map Prod.fst).Perm l := by
  have h := (List.perm_insertionSort pairLe (l.map (fun p => (p, f p)))).map Prod.fst
  rw [List.map_map] at h
  have hid : (Prod.fst ∘ fun p : Pt => (p, f p)) = id := rfl
  rw [hid, List.map_id] at h
  exact h

/-- Re-pairing the points extracted from the sorted pairs with their keys
reproduces the sorted pair list (every pair in it is of the form `(p, f p)`). -/
lemma sort_pairs_fst_idem (f : Pt → ℚ) (l : List Pt) :
    ((List.insertionSort pairLe (l.map (fun p => (p, f p)))).map Prod.fst).map
        (fun p => (p, f p)) =
      List.insertionSort pairLe (l.map (fun p => (p, f p))) := by
  rw [List.map_map]
  have hshape : ∀ e ∈ List.insertionSort pairLe (l.map (fun p => (p, f p))),
      ((fun p => (p, f p)) ∘ Prod.fst) e = id e := by
    intro e he
    have hmem := (List.perm_insertionSort pairLe (l.map (fun p => (p, f p)))).subset he
    rcases List.mem_map.mp hmem with ⟨p, hp, rfl⟩
    rfl
  rw [List.map_congr_left hshape, List.map_id]

/-- C10 (amended): for every non-empty polygon none of whose vertices
coincides with the integer-truncated centroid — in particular for every
valid 4-vertex convex polygon whose truncated centroid is not itself a
vertex — ordering succeeds and is idempotent: re-ordering the output
reproduces it exactly. -/
theorem c10_order_idempotent (ps : List Pt) (hne : ps ≠ [])
    (hc : ∀ p ∈ ps, p ≠ Poly.center ps) :
    ∃ qs, Poly.order ps = some qs ∧ Poly.order qs = some qs := by
  have h1 := order_eq_of_no_centroid ps hne hc
  refine ⟨_, h1, ?_⟩
  have hqs_perm := sort_pairs_fst_perm
    (fun p => angleKey ⟨p.x - (Poly.center ps).x, p.y - (Poly.center ps).y⟩) ps
  have hqs_ne : ((List.insertionSort pairLe
      (ps.map (fun p => (p,
        angleKey ⟨p.x - (Poly.center ps).x, p.y - (Poly.center ps).y⟩)))).map
      Prod.fst) ≠ [] := by
    intro h
    rw [h] at hqs_perm
    have hlen := hqs_perm.length_eq
    simp only [List.length_nil] at hlen
    exact hne (List.length_eq_zero.mp hlen.symm)
  have hcen := center_perm_eq hqs_perm
  have hc2 : ∀ p ∈ (List.insertionSort pairLe
      (ps.map (fun p => (p,
        angleKey ⟨p.x - (Poly.center ps).x, p.y - (Poly.center ps).y⟩)))).map
      Prod.fst,
      p ≠ Poly.center ((List.insertionSort pairLe
        (ps.map (fun p => (p,
          angleKey ⟨p.x - (Poly.center ps).x, p.y - (Poly.center ps).y⟩)))).map
        Prod.fst) := by
    intro p hp
    rw [hcen]
    exact hc p (hqs_perm.mem_iff.mp hp)
  have h2 := order_eq_of_no_centroid _ hqs_ne hc2
  rw [h2, hcen, sort_pairs_fst_idem,
    List.Sorted.insertionSort_eq (List.sorted_insertionSort pairLe _)]

/-- C10 (witness): the amended idempotence applied to the square with corners
`(0,0), (10,0), (10,10), (0,10)`, whose truncated centroid `(5,5)` is not a
vertex. -/
theorem c10_witness :
    ∃ qs, Poly.order [⟨0, 0⟩, ⟨10, 0⟩, ⟨10, 10⟩, ⟨0, 10⟩] = some qs ∧
      Poly.order qs = some qs :=
  c10_order_idempotent _ (by decide) (by decide)

end YaacCV
